import Mathlib

/-!
# Smart Undo/Redo System: a shallow embedding of `code.cpp`

The C++ program keeps a `Document` (one `std::string`), three kinds of
`Operation` (`InsertOp`, `DeleteOp`, `ReplaceOp`) and a `History` with two
vectors of operations (`undoStack`, `redoStack`).

Modelling conventions.

* A `std::string` is a `List Char`; `size()` is `List.length`.
* C++ `int` values are integers (`Int`).  The one `int` addition of the
  program, `pos + len` in the clamp test of `deleteText` and `replaceText`, is
  a 32-bit addition: when the sum leaves the range of `int` it wraps around
  (`wrapInt32`), which is what the usual compilers produce for the signed
  overflow.  The cast `(int)text.size()` is exact (texts shorter than `2^31`).
* The implicit conversion `int → size_t` that happens when an `int` is passed
  to a `std::string` member is explicit (`toSizeT`).
* The `std::string` members `insert`, `substr`, `erase`, `replace` throw
  `std::out_of_range` when their position exceeds `size()`; a thrown exception
  is the result `none`.  Every function that calls them returns an `Option`.
* What a function writes to `cout` is returned as a list of strings.
* A `vector` used as a stack is a list whose last element is the top
  (`push_back` appends, `back` is the last element, `pop_back` drops it).
* An `Operation*` held by a stack is the value of the object it points to; a
  member function that assigns to fields returns the updated object.
-/

namespace UndoRedo

/-- Contents of a `std::string`. -/
abbrev Str := List Char

/-- Lines written to `cout`, oldest first. -/
abbrev Console := List String

/-- Conversion of an `int` to the 64-bit unsigned `size_t`: a non-negative
value is kept, a negative value `i` becomes `2^64 + i`. -/
def toSizeT (i : Int) : Nat :=
  if 0 ≤ i then i.toNat else (i + 2 ^ 64).toNat

/-! ## The `std::string` members used by `Document` -/

namespace StdString

/-- Member `insert(pos, s)` of `std::string`: throws when `pos > size()`. -/
def insert (t : Str) (pos : Nat) (s : Str) : Option Str :=
  if pos > t.length then none else some (t.take pos ++ s ++ t.drop pos)

/-- Member `substr(pos, n)` of `std::string`: throws when `pos > size()`,
otherwise the characters `[pos, pos + min n (size() - pos))`. -/
def substr (t : Str) (pos n : Nat) : Option Str :=
  if pos > t.length then none else some ((t.drop pos).take n)

/-- Member `erase(pos, n)` of `std::string`: throws when `pos > size()`,
otherwise removes `min n (size() - pos)` characters starting at `pos`. -/
def erase (t : Str) (pos n : Nat) : Option Str :=
  if pos > t.length then none else some (t.take pos ++ (t.drop pos).drop n)

/-- Member `replace(pos, n, s)` of `std::string`: throws when `pos > size()`,
otherwise replaces `min n (size() - pos)` characters starting at `pos` by `s`. -/
def replace (t : Str) (pos n : Nat) (s : Str) : Option Str :=
  if pos > t.length then none else some (t.take pos ++ s ++ (t.drop pos).drop n)

end StdString

/-! ## Document -/

/-- Class `Document`: its only member is `text`. -/
structure Document where
  text : Str
deriving DecidableEq, Repr

/-- `Document::getText()`. -/
def Document.getText (d : Document) : Str := d.text

/-- The value a 32-bit `int` holds when the mathematical result is `x`: the
representative of `x` modulo `2^32` in the range `-2^31 .. 2^31 - 1`. -/
def wrapInt32 (x : Int) : Int :=
  (x + 2 ^ 31) % 2 ^ 32 - 2 ^ 31

/-- The statement `if (pos + len > (int)text.size()) len = text.size() - pos;`
of `deleteText` and `replaceText`: the value of `len` after it.  The sum
`pos + len` is an `int`. -/
def clampLen (size : Nat) (pos len : Int) : Int :=
  if wrapInt32 (pos + len) > (size : Int) then (size : Int) - pos else len

/-- `Document::insertText(pos, s)`: the document after the call and the
console output. -/
def Document.insertText (d : Document) (pos : Int) (s : Str) :
    Option (Document × Console) :=
  if pos < 0 ∨ pos > (d.text.length : Int) then
    some (d, ["Insert: invalid position\n"])
  else
    (StdString.insert d.text (toSizeT pos) s).bind fun t =>
      some (⟨t⟩, [])

/-- `Document::deleteText(pos, len)`: the document after the call, the
returned string and the console output. -/
def Document.deleteText (d : Document) (pos len : Int) :
    Option (Document × Str × Console) :=
  if pos < 0 ∨ pos ≥ (d.text.length : Int) then
    some (d, [], ["Delete: invalid position\n"])
  else
    let len := clampLen d.text.length pos len
    (StdString.substr d.text (toSizeT pos) (toSizeT len)).bind fun removed =>
      (StdString.erase d.text (toSizeT pos) (toSizeT len)).bind fun t =>
        some (⟨t⟩, removed, [])

/-- `Document::replaceText(pos, len, s)`: the document after the call, the
returned string and the console output. -/
def Document.replaceText (d : Document) (pos len : Int) (s : Str) :
    Option (Document × Str × Console) :=
  if pos < 0 ∨ pos ≥ (d.text.length : Int) then
    some (d, [], ["Replace: invalid position\n"])
  else
    let len := clampLen d.text.length pos len
    (StdString.substr d.text (toSizeT pos) (toSizeT len)).bind fun old =>
      (StdString.replace d.text (toSizeT pos) (toSizeT len) s).bind fun t =>
        some (⟨t⟩, old, [])

/-! ## Operations -/

/-- The three subclasses of `Operation` with their data members. -/
inductive Operation where
  | InsertOp (pos : Int) (txt : Str)
  | DeleteOp (pos len : Int) (removed : Str)
  | ReplaceOp (pos len : Int) (newTxt oldTxt : Str)
deriving DecidableEq, Repr

/-- Constructor call `DeleteOp(p, l)`: the default argument `r` is empty. -/
def Operation.newDelete (p l : Int) : Operation := .DeleteOp p l []

/-- Constructor call `ReplaceOp(p, l, n)`: `oldTxt` starts empty. -/
def Operation.newReplace (p l : Int) (n : Str) : Operation := .ReplaceOp p l n []

/-- The virtual `apply(doc)`: the object after the call (its fields may have
been assigned), the document after the call and the console output. -/
def Operation.apply : Operation → Document → Option (Operation × Document × Console)
  | .InsertOp pos txt, doc =>
    (doc.insertText pos txt).bind fun r =>
      some (.InsertOp pos txt, r.1, r.2)
  | .DeleteOp pos len _, doc =>
    (doc.deleteText pos len).bind fun r =>
      some (.DeleteOp pos (r.2.1.length : Int) r.2.1, r.1, r.2.2)
  | .ReplaceOp pos len newTxt _, doc =>
    (doc.replaceText pos len newTxt).bind fun r =>
      some (.ReplaceOp pos len newTxt r.2.1, r.1, r.2.2)

/-- The virtual `invert()`: the freshly allocated inverse operation. -/
def Operation.invert : Operation → Operation
  | .InsertOp pos txt => .DeleteOp pos (txt.length : Int) txt
  | .DeleteOp pos _ removed => .InsertOp pos removed
  | .ReplaceOp pos _ newTxt oldTxt => .ReplaceOp pos (newTxt.length : Int) oldTxt []

/-! ## History -/

/-- Class `History`: the two stacks and the document. -/
structure History where
  undoStack : List Operation
  redoStack : List Operation
  doc : Document
deriving DecidableEq, Repr

/-- A default-constructed `History h;`. -/
def History.fresh : History := ⟨[], [], ⟨[]⟩⟩

/-- `History::doOp(op)`. -/
def History.doOp (h : History) (op : Operation) : Option (History × Console) :=
  (op.apply h.doc).bind fun r =>
    some (⟨h.undoStack ++ [r.1], [], r.2.1⟩, r.2.2)

/-- `History::undo()`. -/
def History.undo (h : History) : Option (History × Console) :=
  match h.undoStack.getLast? with
  | none => some (h, ["Nothing to undo\n"])
  | some op =>
    (op.invert.apply h.doc).bind fun r =>
      some (⟨h.undoStack.dropLast, h.redoStack ++ [op], r.2.1⟩, r.2.2)

/-- `History::redo()`. -/
def History.redo (h : History) : Option (History × Console) :=
  match h.redoStack.getLast? with
  | none => some (h, ["Nothing to redo\n"])
  | some op =>
    (op.invert.apply h.doc).bind fun r =>
      some (⟨h.undoStack ++ [op], h.redoStack.dropLast, r.2.1⟩, r.2.2)

/-- The text that `History::show()` prints, `doc.getText()`. -/
def History.currentText (h : History) : Str := h.doc.getText

/-- The position test with which the primitive called by `apply` rejects the
call: `pos > size` for `insertText`, `pos >= size` for `deleteText` and
`replaceText`. -/
def Operation.posInvalid : Operation → Document → Bool
  | .InsertOp pos _, d => decide (pos < 0 ∨ pos > (d.text.length : Int))
  | .DeleteOp pos _ _, d => decide (pos < 0 ∨ pos ≥ (d.text.length : Int))
  | .ReplaceOp pos _ _ _, d => decide (pos < 0 ∨ pos ≥ (d.text.length : Int))

/-- The members of an operation object that `apply` never assigns: its class,
`pos`, and `txt` (insert) or `len` and `newTxt` (replace).  The members that
`apply` assigns (`len` and `removed` of a delete, `oldTxt` of a replace) are
blanked. -/
def Operation.unassigned : Operation → Operation
  | .InsertOp pos txt => .InsertOp pos txt
  | .DeleteOp pos _ _ => .DeleteOp pos 0 []
  | .ReplaceOp pos len newTxt _ => .ReplaceOp pos len newTxt []

/-- Whether the text an operation writes is non-empty when the operation is a
`ReplaceOp` (member `newTxt`); `true` for the other two classes. -/
def Operation.replacesByText : Operation → Bool
  | .ReplaceOp _ _ newTxt _ => !newTxt.isEmpty
  | _ => true

/-- A sample session of four operations, as `main` would construct them:
`Insert(0,"hello")`, `Delete(1,3)`, `Replace(0,1,"J")` and `Insert(9,"zz")`,
whose position is invalid when it is executed. -/
def sampleOps : List Operation :=
  [.InsertOp 0 "hello".toList, Operation.newDelete 1 3,
   Operation.newReplace 0 1 "J".toList, .InsertOp 9 "zz".toList]

/-- The calls that the loop of `main` makes on the `History` object. -/
inductive Call where
  | doOp (op : Operation)
  | undo
  | redo
deriving DecidableEq, Repr

/-- One iteration of the loop of `main` for choices 1 to 5. -/
def History.call (h : History) : Call → Option (History × Console)
  | .doOp op => h.doOp op
  | .undo => h.undo
  | .redo => h.redo

/-- A sequence of calls, in order; `none` when one of them throws. -/
def History.run (h : History) : List Call → Option History
  | [] => some h
  | c :: cs => (h.call c).bind fun r => History.run r.1 cs

/-! ## Closed forms of the `Document` primitives -/

theorem toSizeT_of_nonneg {i : Int} (h : 0 ≤ i) : toSizeT i = i.toNat := by
  simp [toSizeT, h]

/-- Wrapping a non-negative sum never makes it larger. -/
theorem wrapInt32_le {x : Int} (h : 0 ≤ x) : wrapInt32 x ≤ x := by
  unfold wrapInt32
  omega

/-- A sum within the range of `int` is not changed by the wrap-around. -/
theorem wrapInt32_of_range {x : Int} (h0 : -(2 : Int) ^ 31 ≤ x) (h1 : x < 2 ^ 31) :
    wrapInt32 x = x := by
  unfold wrapInt32
  omega

/-- A range that fits in the buffer is not clamped. -/
theorem clampLen_of_le {size : Nat} {pos len : Int} (h0 : 0 ≤ pos) (hl : 0 ≤ len)
    (h : pos + len ≤ (size : Int)) : clampLen size pos len = len := by
  have hw := wrapInt32_le (add_nonneg h0 hl)
  unfold clampLen
  rw [if_neg (by omega)]

/-- With a valid position and a non-negative length, the length handed to the
string and `min len (size - pos)` select the same characters: the string
members stop at the end of the buffer. -/
theorem toSizeT_clampLen {size : Nat} {pos len : Int} (h0 : 0 ≤ pos)
    (h1 : pos < (size : Int)) (hl : 0 ≤ len) :
    min (toSizeT (clampLen size pos len)) (size - pos.toNat)
      = min len.toNat (size - pos.toNat) := by
  have hw := wrapInt32_le (add_nonneg h0 hl)
  unfold clampLen
  split
  · rw [toSizeT_of_nonneg (by omega)]; omega
  · rw [toSizeT_of_nonneg hl]

/-- On the rest `l` of the buffer from `pos` on, taking or dropping the length
handed to the string is taking or dropping `min len (size - pos)`. -/
theorem clampLen_take_drop (l : Str) {size : Nat} {pos len : Int} (h0 : 0 ≤ pos)
    (h1 : pos < (size : Int)) (hl : 0 ≤ len) (hlen : l.length = size - pos.toNat) :
    l.take (toSizeT (clampLen size pos len)) = l.take (min len.toNat (size - pos.toNat))
    ∧ l.drop (toSizeT (clampLen size pos len))
        = l.drop (min len.toNat (size - pos.toNat)) := by
  have hm := @toSizeT_clampLen size pos len h0 h1 hl
  constructor
  · rw [List.take_eq_take]
    omega
  · by_cases hle : toSizeT (clampLen size pos len) ≤ l.length
    · have : toSizeT (clampLen size pos len) = min len.toNat (size - pos.toNat) := by
        omega
      rw [this]
    · rw [List.drop_of_length_le (by omega), List.drop_of_length_le (by omega)]

theorem insertText_invalid (d : Document) (pos : Int) (s : Str)
    (h : pos < 0 ∨ pos > (d.text.length : Int)) :
    d.insertText pos s = some (d, ["Insert: invalid position\n"]) := by
  simp [Document.insertText, h]

theorem insertText_valid (d : Document) (pos : Int) (s : Str)
    (h : ¬ (pos < 0 ∨ pos > (d.text.length : Int))) :
    d.insertText pos s
      = some (⟨d.text.take pos.toNat ++ s ++ d.text.drop pos.toNat⟩, []) := by
  have h0 : 0 ≤ pos := by omega
  have h1 : ¬ d.text.length < pos.toNat := by omega
  simp [Document.insertText, h, StdString.insert, toSizeT_of_nonneg h0, h1]

theorem deleteText_invalid (d : Document) (pos len : Int)
    (h : pos < 0 ∨ pos ≥ (d.text.length : Int)) :
    d.deleteText pos len = some (d, [], ["Delete: invalid position\n"]) := by
  simp [Document.deleteText, h]

/-- A valid position, any length: `n` is the length handed to the string. -/
theorem deleteText_valid (d : Document) (pos len : Int)
    (h : ¬ (pos < 0 ∨ pos ≥ (d.text.length : Int))) :
    d.deleteText pos len
      = some (⟨d.text.take pos.toNat
                ++ (d.text.drop pos.toNat).drop (toSizeT (clampLen d.text.length pos len))⟩,
              (d.text.drop pos.toNat).take (toSizeT (clampLen d.text.length pos len)),
              []) := by
  have h0 : 0 ≤ pos := by omega
  have h1 : ¬ d.text.length < pos.toNat := by omega
  simp [Document.deleteText, h, StdString.substr, StdString.erase,
    toSizeT_of_nonneg h0, h1]

theorem replaceText_invalid (d : Document) (pos len : Int) (s : Str)
    (h : pos < 0 ∨ pos ≥ (d.text.length : Int)) :
    d.replaceText pos len s = some (d, [], ["Replace: invalid position\n"]) := by
  simp [Document.replaceText, h]

theorem replaceText_valid (d : Document) (pos len : Int) (s : Str)
    (h : ¬ (pos < 0 ∨ pos ≥ (d.text.length : Int))) :
    d.replaceText pos len s
      = some (⟨d.text.take pos.toNat ++ s
                ++ (d.text.drop pos.toNat).drop (toSizeT (clampLen d.text.length pos len))⟩,
              (d.text.drop pos.toNat).take (toSizeT (clampLen d.text.length pos len)),
              []) := by
  have h0 : 0 ≤ pos := by omega
  have h1 : ¬ d.text.length < pos.toNat := by omega
  simp [Document.replaceText, h, StdString.substr, StdString.replace,
    toSizeT_of_nonneg h0, h1]

theorem insertText_total (d : Document) (pos : Int) (s : Str) :
    ∃ r, d.insertText pos s = some r := by
  by_cases h : pos < 0 ∨ pos > (d.text.length : Int)
  · exact ⟨_, insertText_invalid d pos s h⟩
  · exact ⟨_, insertText_valid d pos s h⟩

theorem deleteText_total (d : Document) (pos len : Int) :
    ∃ r, d.deleteText pos len = some r := by
  by_cases h : pos < 0 ∨ pos ≥ (d.text.length : Int)
  · exact ⟨_, deleteText_invalid d pos len h⟩
  · exact ⟨_, deleteText_valid d pos len h⟩

theorem replaceText_total (d : Document) (pos len : Int) (s : Str) :
    ∃ r, d.replaceText pos len s = some r := by
  by_cases h : pos < 0 ∨ pos ≥ (d.text.length : Int)
  · exact ⟨_, replaceText_invalid d pos len s h⟩
  · exact ⟨_, replaceText_valid d pos len s h⟩

/-- No call of `apply` throws. -/
theorem apply_total (op : Operation) (d : Document) : ∃ r, op.apply d = some r := by
  cases op with
  | InsertOp pos txt =>
    obtain ⟨r, hr⟩ := insertText_total d pos txt
    exact ⟨_, by simp [Operation.apply, hr]; rfl⟩
  | DeleteOp pos len removed =>
    obtain ⟨r, hr⟩ := deleteText_total d pos len
    exact ⟨_, by simp [Operation.apply, hr]; rfl⟩
  | ReplaceOp pos len newTxt oldTxt =>
    obtain ⟨r, hr⟩ := replaceText_total d pos len newTxt
    exact ⟨_, by simp [Operation.apply, hr]; rfl⟩

theorem doOp_of_apply {h : History} {op : Operation}
    {r : Operation × Document × Console} (hr : op.apply h.doc = some r) :
    h.doOp op = some (⟨h.undoStack ++ [r.1], [], r.2.1⟩, r.2.2) := by
  simp [History.doOp, hr]

/-! ## The claims -/

/-- C1 (round-trip law, redo half), evaluated on the code.  On a fresh engine,
after `doOp(Insert(0,"hello"))` and `doOp(Delete(1,3))` the text is `"ho"`, one
`undo()` gives `"hello"`, a second gives `""`; the `redo()` that follows leaves
`""` (the claim says `"hello"`), and a second `redo()` still leaves `""` (the
text after the two operations was `"ho"`).  On the text `"hello"`,
`doOp(Replace(0,5,"HELLO"))`, `undo()`, `redo()` leaves `"hello"` (the claim
says `"HELLO"`): `redo` applies `op->invert()`, as `undo` does, so it repeats
the undo. -/
theorem redo_does_not_restore :
    (History.fresh.run
        [.doOp (.InsertOp 0 "hello".toList), .doOp (Operation.newDelete 1 3)]).map
      History.currentText = some "ho".toList
    ∧ (History.fresh.run
        [.doOp (.InsertOp 0 "hello".toList), .doOp (Operation.newDelete 1 3),
         .undo]).map History.currentText = some "hello".toList
    ∧ (History.fresh.run
        [.doOp (.InsertOp 0 "hello".toList), .doOp (Operation.newDelete 1 3),
         .undo, .undo]).map History.currentText = some []
    ∧ (History.fresh.run
        [.doOp (.InsertOp 0 "hello".toList), .doOp (Operation.newDelete 1 3),
         .undo, .undo, .redo]).map History.currentText = some []
    ∧ (History.fresh.run
        [.doOp (.InsertOp 0 "hello".toList), .doOp (Operation.newDelete 1 3),
         .undo, .undo, .redo, .redo]).map History.currentText = some []
    ∧ (History.run ⟨[], [], ⟨"hello".toList⟩⟩
        [.doOp (Operation.newReplace 0 5 "HELLO".toList)]).map
      History.currentText = some "HELLO".toList
    ∧ (History.run ⟨[], [], ⟨"hello".toList⟩⟩
        [.doOp (Operation.newReplace 0 5 "HELLO".toList), .undo]).map
      History.currentText = some "hello".toList
    ∧ (History.run ⟨[], [], ⟨"hello".toList⟩⟩
        [.doOp (Operation.newReplace 0 5 "HELLO".toList), .undo, .redo]).map
      History.currentText = some "hello".toList := by
  decide

/-- C2 (round-trip law, undo half), evaluated on the code.  On a fresh engine
`doOp(Insert(0,"hello"))` gives the text `"hello"`; `doOp(Replace(2,3,""))`,
whose position 2 is valid for `replaceText` on a text of length 5, gives `"he"`;
the `undo()` that follows leaves `"he"`, not `"hello"`: the inverse
`Replace(2,0,"llo")` has `pos = 2 = size` and is rejected by `replaceText`. -/
theorem undo_of_trailing_empty_replace_fails :
    (History.fresh.run [.doOp (.InsertOp 0 "hello".toList)]).map
      History.currentText = some "hello".toList
    ∧ (Operation.newReplace 2 3 []).posInvalid ⟨"hello".toList⟩ = false
    ∧ (History.fresh.run
        [.doOp (.InsertOp 0 "hello".toList), .doOp (Operation.newReplace 2 3 [])]).map
      History.currentText = some "he".toList
    ∧ (History.fresh.run
        [.doOp (.InsertOp 0 "hello".toList), .doOp (Operation.newReplace 2 3 [])]).map
      History.undoStack = some [.InsertOp 0 "hello".toList, .ReplaceOp 2 3 [] "llo".toList]
    ∧ (Operation.ReplaceOp 2 3 [] "llo".toList).invert = .ReplaceOp 2 0 "llo".toList []
    ∧ (Operation.ReplaceOp 2 0 "llo".toList []).apply ⟨"he".toList⟩
        = some (.ReplaceOp 2 0 "llo".toList [], ⟨"he".toList⟩,
            ["Replace: invalid position\n"])
    ∧ (History.fresh.run
        [.doOp (.InsertOp 0 "hello".toList), .doOp (Operation.newReplace 2 3 []),
         .undo]).map History.currentText = some "he".toList := by
  decide

/-- C3 (divergence law).  From every engine state and for every operation,
`doOp` returns, the redo stack after it is empty, and a `redo()` called right
afterwards only reports "Nothing to redo": text, undo stack and redo stack
stay as `doOp` left them. -/
theorem doOp_clears_redoStack (h : History) (op : Operation) :
    ∃ h1 out, h.doOp op = some (h1, out) ∧ h1.redoStack = []
      ∧ h1.redo = some (h1, ["Nothing to redo\n"]) := by
  obtain ⟨r, hr⟩ := apply_total op h.doc
  exact ⟨_, _, doOp_of_apply hr, rfl, rfl⟩

/-- C4 (idempotent emptiness).  `undo()` on an engine whose undo stack is empty
prints "Nothing to undo" and returns the engine as it was; `redo()` on an
engine whose redo stack is empty prints "Nothing to redo" and returns the
engine as it was. -/
theorem empty_stack_calls_change_nothing (u r : List Operation) (d : Document) :
    History.undo ⟨[], r, d⟩ = some (⟨[], r, d⟩, ["Nothing to undo\n"])
    ∧ History.redo ⟨u, [], d⟩ = some (⟨u, [], d⟩, ["Nothing to redo\n"]) :=
  ⟨rfl, rfl⟩

/-- C5 (delete clamping).  For a position `0 <= pos < |t|` and a length
`len >= 0`, with `k = min len (|t| - pos)`, `deleteText(pos, len)` prints
nothing, returns the `k` characters of `t` from `pos` on, and leaves the buffer
`t[0..pos) ++ t[pos+k..)`. -/
theorem deleteText_clamps (t : Str) (pos len : Int)
    (h0 : 0 ≤ pos) (h1 : pos < (t.length : Int)) (hl : 0 ≤ len) :
    Document.deleteText ⟨t⟩ pos len
      = some (⟨t.take pos.toNat
                ++ t.drop (pos.toNat + min len.toNat (t.length - pos.toNat))⟩,
              (t.drop pos.toNat).take (min len.toNat (t.length - pos.toNat)),
              [])
    ∧ ((t.drop pos.toNat).take (min len.toNat (t.length - pos.toNat))).length
        = min len.toNat (t.length - pos.toNat) := by
  constructor
  · have htd := clampLen_take_drop (t.drop pos.toNat) h0 h1 hl (by simp)
    rw [deleteText_valid ⟨t⟩ pos len (by simp only [ge_iff_le]; omega),
      htd.1, htd.2, List.drop_drop, Nat.add_comm]
  · simp only [List.length_take, List.length_drop]
    omega

/-- Witness of C5: `Delete(2,100)` on `"hello"` returns `"llo"`, leaves `"he"`. -/
theorem deleteText_clamps_witness :
    (0 : Int) ≤ 2 ∧ (2 : Int) < ("hello".toList.length : Int) ∧ (0 : Int) ≤ 100
    ∧ Document.deleteText ⟨"hello".toList⟩ 2 100
        = some (⟨"he".toList⟩, "llo".toList, []) :=
  ⟨by decide, by decide, by decide,
    (deleteText_clamps "hello".toList 2 100 (by decide) (by decide) (by decide)).1⟩

/-- C6 (insert contract).  `insertText(pos, s)` prints "Insert: invalid
position" and leaves the document as it was exactly when `pos < 0` or
`pos > |t|`; it prints nothing and leaves `t[0..pos) ++ s ++ t[pos..)` exactly
when `0 <= pos <= |t|`; with `pos = |t|` it succeeds and the buffer is
`t ++ s`. -/
theorem insertText_contract (d : Document) (pos : Int) (s : Str) :
    (d.insertText pos s = some (d, ["Insert: invalid position\n"])
        ↔ (pos < 0 ∨ pos > (d.text.length : Int)))
    ∧ (d.insertText pos s
          = some (⟨d.text.take pos.toNat ++ s ++ d.text.drop pos.toNat⟩, [])
        ↔ ¬ (pos < 0 ∨ pos > (d.text.length : Int)))
    ∧ d.insertText (d.text.length : Int) s = some (⟨d.text ++ s⟩, []) := by
  refine ⟨⟨fun h => ?_, insertText_invalid d pos s⟩,
    ⟨fun h => ?_, insertText_valid d pos s⟩, ?_⟩
  · by_contra hc
    rw [insertText_valid d pos s hc] at h
    simp at h
  · intro hc
    rw [insertText_invalid d pos s hc] at h
    simp at h
  · rw [insertText_valid d _ s (by omega)]
    simp

/-- C7 (boundary asymmetry).  For every buffer, position, length and string:
`deleteText` prints "Delete: invalid position", returns the empty string and
leaves the document as it was exactly when `pos < 0` or `pos >= |t|`, and
returns without printing exactly when `0 <= pos < |t|`; the same holds of
`replaceText` with its own message.  So `pos = |t|` is rejected by both while
`insertText` accepts it, and on the empty buffer both reject every position. -/
theorem delete_replace_boundary (d : Document) (pos len : Int) (s : Str) :
    (d.deleteText pos len = some (d, [], ["Delete: invalid position\n"])
        ↔ (pos < 0 ∨ pos ≥ (d.text.length : Int)))
    ∧ ((∃ d1 r, d.deleteText pos len = some (d1, r, []))
        ↔ ¬ (pos < 0 ∨ pos ≥ (d.text.length : Int)))
    ∧ (d.replaceText pos len s = some (d, [], ["Replace: invalid position\n"])
        ↔ (pos < 0 ∨ pos ≥ (d.text.length : Int)))
    ∧ ((∃ d1 r, d.replaceText pos len s = some (d1, r, []))
        ↔ ¬ (pos < 0 ∨ pos ≥ (d.text.length : Int)))
    ∧ d.deleteText (d.text.length : Int) len
        = some (d, [], ["Delete: invalid position\n"])
    ∧ d.replaceText (d.text.length : Int) len s
        = some (d, [], ["Replace: invalid position\n"])
    ∧ d.insertText (d.text.length : Int) s = some (⟨d.text ++ s⟩, [])
    ∧ Document.deleteText ⟨[]⟩ pos len
        = some (⟨[]⟩, [], ["Delete: invalid position\n"])
    ∧ Document.replaceText ⟨[]⟩ pos len s
        = some (⟨[]⟩, [], ["Replace: invalid position\n"]) := by
  refine ⟨⟨fun h => ?_, deleteText_invalid d pos len⟩,
    ⟨fun h => ?_, fun hc => ⟨_, _, deleteText_valid d pos len hc⟩⟩,
    ⟨fun h => ?_, replaceText_invalid d pos len s⟩,
    ⟨fun h => ?_, fun hc => ⟨_, _, replaceText_valid d pos len s hc⟩⟩,
    deleteText_invalid d _ len (by omega),
    replaceText_invalid d _ len s (by omega), ?_,
    deleteText_invalid ⟨[]⟩ pos len (by simp only [List.length_nil]; omega),
    replaceText_invalid ⟨[]⟩ pos len s (by simp only [List.length_nil]; omega)⟩
  · by_contra hc
    rw [deleteText_valid d pos len hc] at h
    simp at h
  · intro hc
    obtain ⟨d1, r, h⟩ := h
    rw [deleteText_invalid d pos len hc] at h
    simp at h
  · by_contra hc
    rw [replaceText_valid d pos len s hc] at h
    simp at h
  · intro hc
    obtain ⟨d1, r, h⟩ := h
    rw [replaceText_invalid d pos len s hc] at h
    simp at h
  · rw [insertText_valid d _ s (by omega)]
    simp

/-- C8 (replace contract).  For a position `0 <= pos < |t|` and a length
`len >= 0`, with `k = min len (|t| - pos)`, `replaceText(pos, len, s)` prints
nothing, returns the `k` characters of `t` from `pos` on, and leaves the buffer
`t[0..pos) ++ s ++ t[pos+k..)`. -/
theorem replaceText_contract (t : Str) (pos len : Int) (s : Str)
    (h0 : 0 ≤ pos) (h1 : pos < (t.length : Int)) (hl : 0 ≤ len) :
    Document.replaceText ⟨t⟩ pos len s
      = some (⟨t.take pos.toNat ++ s
                ++ t.drop (pos.toNat + min len.toNat (t.length - pos.toNat))⟩,
              (t.drop pos.toNat).take (min len.toNat (t.length - pos.toNat)),
              [])
    ∧ ((t.drop pos.toNat).take (min len.toNat (t.length - pos.toNat))).length
        = min len.toNat (t.length - pos.toNat) := by
  constructor
  · have htd := clampLen_take_drop (t.drop pos.toNat) h0 h1 hl (by simp)
    rw [replaceText_valid ⟨t⟩ pos len s (by simp only [ge_iff_le]; omega),
      htd.1, htd.2, List.drop_drop, Nat.add_comm]
  · simp only [List.length_take, List.length_drop]
    omega

/-- Witness of C8: `Replace(1,2,"XYZ")` on `"hello"` returns `"el"` and leaves
`"hXYZlo"`. -/
theorem replaceText_contract_witness :
    (0 : Int) ≤ 1 ∧ (1 : Int) < ("hello".toList.length : Int) ∧ (0 : Int) ≤ 2
    ∧ Document.replaceText ⟨"hello".toList⟩ 1 2 "XYZ".toList
        = some (⟨"hXYZlo".toList⟩, "el".toList, []) :=
  ⟨by decide, by decide, by decide,
    (replaceText_contract "hello".toList 1 2 "XYZ".toList
      (by decide) (by decide) (by decide)).1⟩

theorem apply_unassigned {op : Operation} {d : Document}
    {r : Operation × Document × Console} (hr : op.apply d = some r) :
    r.1.unassigned = op.unassigned := by
  cases op with
  | InsertOp pos txt =>
    obtain ⟨q, hq⟩ := insertText_total d pos txt
    simp [Operation.apply, hq] at hr
    subst hr
    rfl
  | DeleteOp pos len removed =>
    obtain ⟨q, hq⟩ := deleteText_total d pos len
    simp [Operation.apply, hq] at hr
    subst hr
    rfl
  | ReplaceOp pos len newTxt oldTxt =>
    obtain ⟨q, hq⟩ := replaceText_total d pos len newTxt
    simp [Operation.apply, hq] at hr
    subst hr
    rfl

theorem apply_posInvalid {op : Operation} {d : Document}
    {r : Operation × Document × Console} (hr : op.apply d = some r)
    (hi : op.posInvalid d = true) : r.2.1 = d ∧ r.2.2 ≠ [] := by
  cases op with
  | InsertOp pos txt =>
    simp only [Operation.posInvalid, decide_eq_true_eq] at hi
    simp [Operation.apply, insertText_invalid d pos txt hi] at hr
    subst hr
    simp
  | DeleteOp pos len removed =>
    simp only [Operation.posInvalid, decide_eq_true_eq] at hi
    simp [Operation.apply, deleteText_invalid d pos len hi] at hr
    subst hr
    simp
  | ReplaceOp pos len newTxt oldTxt =>
    simp only [Operation.posInvalid, decide_eq_true_eq] at hi
    simp [Operation.apply, replaceText_invalid d pos len newTxt hi] at hr
    subst hr
    simp

/-- C9 (execute tracks every operation).  From every engine state and for every
operation `op`, `doOp(op)` returns; the undo stack after it is the previous
undo stack with one more element on top, which is the object `op` in the state
`apply` left it in (same class, `pos`, `txt`, requested `len` and `newTxt` of a
replace; the captured members hold what `apply` wrote); the redo stack is
empty.  When the position of `op` is invalid for its primitive the document is
unchanged, a message is printed, and the push happens all the same. -/
theorem doOp_pushes_op (h : History) (op : Operation) :
    ∃ op1 d1 out, op.apply h.doc = some (op1, d1, out)
      ∧ h.doOp op = some (⟨h.undoStack ++ [op1], [], d1⟩, out)
      ∧ (h.undoStack ++ [op1]).length = h.undoStack.length + 1
      ∧ op1.unassigned = op.unassigned
      ∧ (op.posInvalid h.doc = true → d1 = h.doc ∧ out ≠ []) := by
  obtain ⟨⟨op1, d1, out⟩, hr⟩ := apply_total op h.doc
  exact ⟨op1, d1, out, hr, doOp_of_apply hr, by simp, apply_unassigned hr,
    fun hi => apply_posInvalid hr hi⟩

theorem undo_snoc (u r : List Operation) (op : Operation) (d : Document) :
    History.undo ⟨u ++ [op], r, d⟩
      = (op.invert.apply d).bind fun x => some (⟨u, r ++ [op], x.2.1⟩, x.2.2) := by
  simp [History.undo]

theorem redo_snoc (u r : List Operation) (op : Operation) (d : Document) :
    History.redo ⟨u, r ++ [op], d⟩
      = (op.invert.apply d).bind fun x => some (⟨u ++ [op], r, x.2.1⟩, x.2.2) := by
  simp [History.redo]

theorem run_append (h : History) (a b : List Call) :
    h.run (a ++ b) = (h.run a).bind fun h1 => h1.run b := by
  induction a generalizing h with
  | nil => simp [History.run]
  | cons c cs ih =>
    simp only [List.cons_append, History.run]
    cases h.call c with
    | none => simp
    | some x => simp [ih]

theorem run_doOp_cons (h : History) (op : Operation) (cs : List Call)
    {r : Operation × Document × Console} (hr : op.apply h.doc = some r) :
    h.run (.doOp op :: cs) = History.run ⟨h.undoStack ++ [r.1], [], r.2.1⟩ cs := by
  simp [History.run, History.call, doOp_of_apply hr]

/-- A run of `doOp` calls pushes one object per call, in order. -/
theorem run_doOps (ops : List Operation) (h : History) :
    ∃ stk d, stk.map Operation.unassigned = ops.map Operation.unassigned
      ∧ h.run (ops.map .doOp)
          = some ⟨h.undoStack ++ stk, if ops = [] then h.redoStack else [], d⟩ := by
  induction ops generalizing h with
  | nil => exact ⟨[], h.doc, rfl, by cases h; simp [History.run]⟩
  | cons op ops ih =>
    obtain ⟨r, hr⟩ := apply_total op h.doc
    obtain ⟨stk, d, hs, hrun⟩ := ih ⟨h.undoStack ++ [r.1], [], r.2.1⟩
    refine ⟨r.1 :: stk, d, ?_, ?_⟩
    · simp [hs, apply_unassigned hr]
    · rw [List.map_cons, run_doOp_cons h op _ hr, hrun]
      simp

/-- As many `undo` calls as the list `s` is long move `s` from the top of the
undo stack to the top of the redo stack, reversed. -/
theorem run_undos (s : List Operation) :
    ∀ (u r : List Operation) (e : Document),
      ∃ e1, History.run ⟨u ++ s, r, e⟩ (List.replicate s.length .undo)
              = some ⟨u, r ++ s.reverse, e1⟩ := by
  induction s using List.reverseRecOn with
  | nil => intro u r e; exact ⟨e, by simp [History.run]⟩
  | append_singleton s op ih =>
    intro u r e
    obtain ⟨x, hx⟩ := apply_total op.invert e
    obtain ⟨e1, h1⟩ := ih u (r ++ [op]) x.2.1
    refine ⟨e1, ?_⟩
    rw [List.length_append, List.length_singleton, List.replicate_succ, History.run,
      History.call, ← List.append_assoc, undo_snoc, hx]
    simp [h1]

/-- As many `redo` calls as the list `s` is long move `s` from the top of the
redo stack to the top of the undo stack, reversed. -/
theorem run_redos (s : List Operation) :
    ∀ (u r : List Operation) (e : Document),
      ∃ e1, History.run ⟨u, r ++ s, e⟩ (List.replicate s.length .redo)
              = some ⟨u ++ s.reverse, r, e1⟩ := by
  induction s using List.reverseRecOn with
  | nil => intro u r e; exact ⟨e, by simp [History.run]⟩
  | append_singleton s op ih =>
    intro u r e
    obtain ⟨x, hx⟩ := apply_total op.invert e
    obtain ⟨e1, h1⟩ := ih (u ++ [op]) r x.2.1
    refine ⟨e1, ?_⟩
    rw [List.length_append, List.length_singleton, List.replicate_succ, History.run,
      History.call, ← List.append_assoc, redo_snoc, hx]
    simp [h1]

/-- From a fresh engine: the stack after a run of `doOp` calls, after `k` calls
of `undo`, and after `k` further calls of `redo`. -/
theorem fresh_run_stacks (ops : List Operation) (k : Nat) (hk : k ≤ ops.length) :
    ∃ stk : List Operation, stk.map Operation.unassigned = ops.map Operation.unassigned
      ∧ (∃ d, History.fresh.run (ops.map .doOp) = some ⟨stk, [], d⟩)
      ∧ (∃ d, History.fresh.run (ops.map .doOp ++ List.replicate k .undo)
                = some ⟨stk.take (ops.length - k),
                        (stk.drop (ops.length - k)).reverse, d⟩)
      ∧ (∃ d, History.fresh.run
                (ops.map .doOp ++ List.replicate k .undo ++ List.replicate k .redo)
                = some ⟨stk, [], d⟩) := by
  obtain ⟨stk, d, hs, hrun⟩ := run_doOps ops History.fresh
  have hrun1 : History.fresh.run (ops.map .doOp) = some ⟨stk, [], d⟩ := by
    rw [hrun]
    simp [History.fresh]
  have hlen : stk.length = ops.length := by
    simpa using congrArg List.length hs
  have hdrop : (stk.drop (ops.length - k)).length = k := by
    rw [List.length_drop]
    omega
  obtain ⟨e1, h1⟩ := run_undos (stk.drop (ops.length - k)) (stk.take (ops.length - k)) [] d
  rw [List.take_append_drop, hdrop, List.nil_append] at h1
  obtain ⟨e2, h2⟩ := run_redos (stk.drop (ops.length - k)).reverse
    (stk.take (ops.length - k)) [] e1
  rw [List.length_reverse, hdrop, List.reverse_reverse, List.take_append_drop,
    List.nil_append] at h2
  refine ⟨stk, hs, ⟨d, hrun1⟩, ⟨e1, ?_⟩, ⟨e2, ?_⟩⟩
  · rw [run_append, hrun1]
    exact h1
  · rw [run_append, run_append, hrun1]
    simp only [Option.some_bind, h1]
    exact h2

/-- C11 (strict LIFO bookkeeping).  `undo()` on an undo stack `u ++ [op]` and a
redo stack `r` returns with the stacks `u` and `r ++ [op]`: the object `op`
itself is moved, not its inverse.  `redo()` on stacks `u` and `r ++ [op]` returns
with `u ++ [op]` and `r`.  Hence, on a fresh engine, after `doOp` of `O1..On`
the undo stack holds the `n` objects in order; after `k <= n` calls of `undo`
the undo stack is the first `n - k` of them and the redo stack is the other `k`
in reverse order (bottom to top); `k` calls of `redo` then give back the full
undo stack and an empty redo stack. -/
theorem lifo_bookkeeping :
    (∀ (u r : List Operation) (op : Operation) (d : Document),
        ∃ d1 out, History.undo ⟨u ++ [op], r, d⟩ = some (⟨u, r ++ [op], d1⟩, out))
    ∧ (∀ (u r : List Operation) (op : Operation) (d : Document),
        ∃ d1 out, History.redo ⟨u, r ++ [op], d⟩ = some (⟨u ++ [op], r, d1⟩, out))
    ∧ ∀ (ops : List Operation) (k : Nat), k ≤ ops.length →
        ∃ stk : List Operation,
          stk.map Operation.unassigned = ops.map Operation.unassigned
          ∧ (∃ d, History.fresh.run (ops.map .doOp) = some ⟨stk, [], d⟩)
          ∧ (∃ d, History.fresh.run (ops.map .doOp ++ List.replicate k .undo)
                    = some ⟨stk.take (ops.length - k),
                            (stk.drop (ops.length - k)).reverse, d⟩)
          ∧ (∃ d, History.fresh.run
                    (ops.map .doOp ++ List.replicate k .undo ++ List.replicate k .redo)
                    = some ⟨stk, [], d⟩) := by
  refine ⟨fun u r op d => ?_, fun u r op d => ?_, fresh_run_stacks⟩
  · obtain ⟨x, hx⟩ := apply_total op.invert d
    exact ⟨x.2.1, x.2.2, by rw [undo_snoc, hx]; rfl⟩
  · obtain ⟨x, hx⟩ := apply_total op.invert d
    exact ⟨x.2.1, x.2.2, by rw [redo_snoc, hx]; rfl⟩

/-! ## The primitives on a buffer cut in three: `a ++ b ++ c` -/

theorem insertText_app (a c s : Str) :
    Document.insertText ⟨a ++ c⟩ (a.length : Int) s = some (⟨a ++ s ++ c⟩, []) := by
  rw [insertText_valid _ _ _ (by simp only [List.length_append]; omega)]
  simp

/-- Inserting the empty string never changes the document. -/
theorem insertText_nil (d : Document) (pos : Int) :
    ∃ o, d.insertText pos [] = some (d, o) := by
  by_cases h : pos < 0 ∨ pos > (d.text.length : Int)
  · exact ⟨_, insertText_invalid d pos [] h⟩
  · exact ⟨[], by rw [insertText_valid d pos [] h]; simp⟩

/-- Deleting `|b|` characters where `b` starts gives back `b`; when nothing
follows the position the call is rejected, and then `b` is empty. -/
theorem deleteText_app (a b c : Str) :
    ∃ o, Document.deleteText ⟨a ++ b ++ c⟩ (a.length : Int) (b.length : Int)
          = some (⟨a ++ c⟩, b, o) := by
  by_cases hbc : b.length + c.length = 0
  · have hb : b = [] := List.length_eq_zero.mp (by omega)
    have hc : c = [] := List.length_eq_zero.mp (by omega)
    subst hb hc
    refine ⟨["Delete: invalid position\n"], ?_⟩
    rw [deleteText_invalid _ _ _ (by simp)]
    simp
  · refine ⟨[], ?_⟩
    have h1 : ((a.length : Nat) : Int) < (((a ++ b ++ c).length : Nat) : Int) := by
      simp only [List.length_append]; omega
    have hcl : clampLen (a ++ b ++ c).length (a.length : Int) (b.length : Int)
        = (b.length : Int) :=
      clampLen_of_le (by omega) (by omega) (by simp only [List.length_append]; omega)
    rw [deleteText_valid _ _ _ (by simp only [List.length_append]; omega), hcl,
      toSizeT_of_nonneg (by omega)]
    simp [List.append_assoc]

/-- Deleting no character never changes the document. -/
theorem deleteText_zero (d : Document) (pos : Int) :
    ∃ o, d.deleteText pos 0 = some (d, [], o) := by
  by_cases h : pos < 0 ∨ pos ≥ (d.text.length : Int)
  · exact ⟨_, deleteText_invalid d pos 0 h⟩
  · refine ⟨[], ?_⟩
    have h0 : 0 ≤ pos := by omega
    have h1 : pos < (d.text.length : Int) := by omega
    rw [deleteText_valid d pos 0 h, clampLen_of_le h0 (le_refl 0) (by omega)]
    simp [toSizeT]

theorem replaceText_app (a b c s : Str) (hbc : b ++ c ≠ []) :
    Document.replaceText ⟨a ++ b ++ c⟩ (a.length : Int) (b.length : Int) s
      = some (⟨a ++ s ++ c⟩, b, []) := by
  have hlen : 0 < b.length + c.length := by
    have := List.length_pos.mpr hbc
    simpa using this
  have h1 : ((a.length : Nat) : Int) < (((a ++ b ++ c).length : Nat) : Int) := by
    simp only [List.length_append]; omega
  have hcl : clampLen (a ++ b ++ c).length (a.length : Int) (b.length : Int)
      = (b.length : Int) :=
    clampLen_of_le (by omega) (by omega) (by simp only [List.length_append]; omega)
  rw [replaceText_valid _ _ _ _ (by simp only [List.length_append]; omega), hcl,
    toSizeT_of_nonneg (by omega)]
  simp [List.append_assoc]

/-- A position that `insertText` accepts cuts the buffer in two. -/
theorem insertText_split (d : Document) (pos : Int)
    (h : ¬ (pos < 0 ∨ pos > (d.text.length : Int))) :
    ∃ a c : Str, d = ⟨a ++ c⟩ ∧ (a.length : Int) = pos := by
  refine ⟨d.text.take pos.toNat, d.text.drop pos.toNat, ?_, ?_⟩
  · rw [List.take_append_drop]
  · rw [List.length_take]; omega

/-- A position that `deleteText` and `replaceText` accept cuts the buffer in
three, `a ++ b ++ c` with `b ++ c` non-empty: `b` is what the call removes. -/
theorem delete_replace_split (d : Document) (pos len : Int)
    (h : ¬ (pos < 0 ∨ pos ≥ (d.text.length : Int))) :
    ∃ a b c : Str, d = ⟨a ++ b ++ c⟩ ∧ (a.length : Int) = pos ∧ b ++ c ≠ []
      ∧ (0 ≤ len → b.length = min len.toNat (b.length + c.length))
      ∧ d.deleteText pos len = some (⟨a ++ c⟩, b, [])
      ∧ ∀ s, d.replaceText pos len s = some (⟨a ++ s ++ c⟩, b, []) := by
  have h0 : 0 ≤ pos := by omega
  have h1 : pos < (d.text.length : Int) := by omega
  refine ⟨d.text.take pos.toNat,
    (d.text.drop pos.toNat).take (toSizeT (clampLen d.text.length pos len)),
    (d.text.drop pos.toNat).drop (toSizeT (clampLen d.text.length pos len)),
    ?_, ?_, ?_, fun hl => ?_, deleteText_valid d pos len h,
    fun s => replaceText_valid d pos len s h⟩
  · rw [List.append_assoc, List.take_append_drop, List.take_append_drop]
  · rw [List.length_take]; omega
  · rw [List.take_append_drop]
    intro hnil
    have := congrArg List.length hnil
    simp only [List.length_drop, List.length_nil] at this
    omega
  · have htd := clampLen_take_drop (d.text.drop pos.toNat) h0 h1 hl (by simp)
    rw [htd.1, htd.2]
    simp only [List.length_take, List.length_drop]
    omega

/-! ## `apply` in terms of the primitive it calls -/

theorem apply_insert {d d1 : Document} {pos : Int} {txt : Str} {o : Console}
    (h : d.insertText pos txt = some (d1, o)) :
    (Operation.InsertOp pos txt).apply d = some (.InsertOp pos txt, d1, o) := by
  simp [Operation.apply, h]

theorem apply_delete {d d1 : Document} {pos len : Int} {r : Str} {o : Console}
    (removed : Str) (h : d.deleteText pos len = some (d1, r, o)) :
    (Operation.DeleteOp pos len removed).apply d
      = some (.DeleteOp pos (r.length : Int) r, d1, o) := by
  simp [Operation.apply, h]

theorem apply_replace {d d1 : Document} {pos len : Int} {s r : Str} {o : Console}
    (oldTxt : Str) (h : d.replaceText pos len s = some (d1, r, o)) :
    (Operation.ReplaceOp pos len s oldTxt).apply d
      = some (.ReplaceOp pos len s r, d1, o) := by
  simp [Operation.apply, h]

theorem chain_insert (pos : Int) (txt : Str) (b : Document) :
    ∃ op1 b1 o1 inv1 b2 o2 inv2 o3,
      (Operation.InsertOp pos txt).apply b = some (op1, b1, o1)
      ∧ op1.invert.apply b1 = some (inv1, b2, o2)
      ∧ inv1.invert.apply b2 = some (inv2, b1, o3) := by
  by_cases hv : pos < 0 ∨ pos > (b.text.length : Int)
  · obtain ⟨o3, h3⟩ := insertText_nil b pos
    exact ⟨_, _, _, _, _, _, _, _, apply_insert (insertText_invalid b pos txt hv),
      apply_delete txt (deleteText_invalid b pos _ (by omega)),
      apply_insert h3⟩
  · obtain ⟨a, c, rfl, rfl⟩ := insertText_split b pos hv
    obtain ⟨o2, h2⟩ := deleteText_app a txt c
    exact ⟨_, _, _, _, _, _, _, _, apply_insert (insertText_app a c txt),
      apply_delete txt h2, apply_insert (insertText_app a c txt)⟩

theorem chain_delete (pos len : Int) (removed : Str) (b : Document) :
    ∃ op1 b1 o1 inv1 b2 o2 inv2 o3,
      (Operation.DeleteOp pos len removed).apply b = some (op1, b1, o1)
      ∧ op1.invert.apply b1 = some (inv1, b2, o2)
      ∧ inv1.invert.apply b2 = some (inv2, b1, o3) := by
  by_cases hv : pos < 0 ∨ pos ≥ (b.text.length : Int)
  · obtain ⟨o2, h2⟩ := insertText_nil b pos
    obtain ⟨o3, h3⟩ := deleteText_zero b pos
    exact ⟨_, _, _, _, _, _, _, _, apply_delete removed (deleteText_invalid b pos len hv),
      apply_insert h2, apply_delete [] h3⟩
  · obtain ⟨a, r, c, rfl, rfl, -, -, hd, -⟩ := delete_replace_split b pos len hv
    obtain ⟨o3, h3⟩ := deleteText_app a r c
    exact ⟨_, _, _, _, _, _, _, _, apply_delete removed hd,
      apply_insert (insertText_app a c r), apply_delete r h3⟩

theorem chain_replace (pos len : Int) (newTxt oldTxt : Str) (b : Document) :
    ∃ op1 b1 o1 inv1 b2 o2 inv2 o3,
      (Operation.ReplaceOp pos len newTxt oldTxt).apply b = some (op1, b1, o1)
      ∧ op1.invert.apply b1 = some (inv1, b2, o2)
      ∧ inv1.invert.apply b2 = some (inv2, b1, o3) := by
  by_cases hv : pos < 0 ∨ pos ≥ (b.text.length : Int)
  · exact ⟨_, _, _, _, _, _, _, _,
      apply_replace oldTxt (replaceText_invalid b pos len newTxt hv),
      apply_replace [] (replaceText_invalid b pos _ [] hv),
      apply_replace [] (replaceText_invalid b pos _ [] hv)⟩
  · obtain ⟨a, r, c, rfl, rfl, hrc, -, -, hr⟩ := delete_replace_split b pos len hv
    by_cases hsc : newTxt ++ c = []
    · obtain ⟨hs, hc⟩ := List.append_eq_nil.mp hsc
      subst hs hc
      have hinv : ∀ (n : Int) (s : Str),
          Document.replaceText ⟨a ++ [] ++ []⟩ (a.length : Int) n s
            = some (⟨a ++ [] ++ []⟩, [], ["Replace: invalid position\n"]) :=
        fun n s => replaceText_invalid _ _ n s (by simp)
      exact ⟨_, _, _, _, _, _, _, _, apply_replace oldTxt (hr []),
        apply_replace [] (hinv _ r), apply_replace [] (hinv _ [])⟩
    · exact ⟨_, _, _, _, _, _, _, _, apply_replace oldTxt (hr newTxt),
        apply_replace [] (replaceText_app a newTxt c r hsc),
        apply_replace [] (replaceText_app a r c newTxt hrc)⟩

/-- C12 (apply-invert-apply chain).  For every buffer `b` and every operation
`op`: `op.apply` returns and leaves a buffer `b1`; the inverse `inv` of `op`,
taken after `apply`, applies to `b1` and leaves a buffer `b2`; the inverse of
`inv`, taken after `inv` was applied, applies to `b2` and leaves `b1` again.
No condition on the lengths is needed. -/
theorem apply_invert_apply_chain (op : Operation) (b : Document) :
    ∃ op1 b1 o1 inv1 b2 o2 inv2 o3,
      op.apply b = some (op1, b1, o1)
      ∧ op1.invert.apply b1 = some (inv1, b2, o2)
      ∧ inv1.invert.apply b2 = some (inv2, b1, o3) := by
  cases op with
  | InsertOp pos txt => exact chain_insert pos txt b
  | DeleteOp pos len removed => exact chain_delete pos len removed b
  | ReplaceOp pos len newTxt oldTxt => exact chain_replace pos len newTxt oldTxt b

/-- C13 (delete captures its actual outcome).  For every buffer `t` and every
`DeleteOp(pos, len)` with `len >= 0`, `apply` returns with the members
`removed` and `len = |removed|` assigned.  With a valid position `removed` is
the `k = min len (|t| - pos)` characters of `t` from `pos` on and the buffer is
`t` without them; with an invalid position `removed` is empty (so `len` is 0)
and the buffer is `t`.  `invert()` called afterwards is `Insert(pos, removed)`,
and applying it to the buffer left by the delete gives back `t`. -/
theorem delete_captures_outcome (t : Str) (pos len : Int) (removed0 : Str)
    (hl : 0 ≤ len) :
    ∃ removed d1 o,
      (Operation.DeleteOp pos len removed0).apply ⟨t⟩
        = some (.DeleteOp pos (removed.length : Int) removed, d1, o)
      ∧ (¬ (pos < 0 ∨ pos ≥ (t.length : Int)) →
          removed = (t.drop pos.toNat).take (min len.toNat (t.length - pos.toNat))
          ∧ removed.length = min len.toNat (t.length - pos.toNat)
          ∧ d1 = ⟨t.take pos.toNat
                  ++ t.drop (pos.toNat + min len.toNat (t.length - pos.toNat))⟩)
      ∧ ((pos < 0 ∨ pos ≥ (t.length : Int)) → removed = [] ∧ d1 = ⟨t⟩)
      ∧ (Operation.DeleteOp pos (removed.length : Int) removed).invert
          = .InsertOp pos removed
      ∧ ∃ o2, (Operation.InsertOp pos removed).apply d1
                = some (.InsertOp pos removed, ⟨t⟩, o2) := by
  by_cases hv : pos < 0 ∨ pos ≥ (t.length : Int)
  · obtain ⟨o2, h2⟩ := insertText_nil ⟨t⟩ pos
    exact ⟨[], ⟨t⟩, _, apply_delete removed0 (deleteText_invalid ⟨t⟩ pos len hv),
      fun hc => absurd hv hc, fun _ => ⟨rfl, rfl⟩, rfl, o2, apply_insert h2⟩
  · obtain ⟨a, r, c, ht, rfl, -, hk, hd, -⟩ := delete_replace_split ⟨t⟩ pos len hv
    have ht1 : t = a ++ r ++ c := congrArg Document.text ht
    subst ht1
    have hk1 := hk hl
    have hm : min len.toNat ((a ++ r ++ c).length - ((a.length : Nat) : Int).toNat)
        = r.length := by
      rw [hk1]
      simp only [List.length_append, Int.toNat_ofNat]
      omega
    refine ⟨r, ⟨a ++ c⟩, [], apply_delete removed0 hd, fun _ => ?_,
      fun hc => absurd hc hv, rfl, [], apply_insert (insertText_app a c r)⟩
    rw [hm]
    simp [List.append_assoc]

/-- Witness of C13: `DeleteOp(2,100)` on `"hello"`. -/
theorem delete_captures_outcome_witness :
    (0 : Int) ≤ 100 ∧
    ∃ removed d1 o,
      (Operation.DeleteOp 2 100 []).apply ⟨"hello".toList⟩
        = some (.DeleteOp 2 (removed.length : Int) removed, d1, o)
      ∧ (¬ ((2 : Int) < 0 ∨ (2 : Int) ≥ ("hello".toList.length : Int)) →
          removed = ("hello".toList.drop (2 : Int).toNat).take
              (min (100 : Int).toNat ("hello".toList.length - (2 : Int).toNat))
          ∧ removed.length
              = min (100 : Int).toNat ("hello".toList.length - (2 : Int).toNat)
          ∧ d1 = ⟨"hello".toList.take (2 : Int).toNat
                  ++ "hello".toList.drop ((2 : Int).toNat
                      + min (100 : Int).toNat ("hello".toList.length - (2 : Int).toNat))⟩)
      ∧ (((2 : Int) < 0 ∨ (2 : Int) ≥ ("hello".toList.length : Int)) →
          removed = [] ∧ d1 = ⟨"hello".toList⟩)
      ∧ (Operation.DeleteOp 2 (removed.length : Int) removed).invert
          = .InsertOp 2 removed
      ∧ ∃ o2, (Operation.InsertOp 2 removed).apply d1
                = some (.InsertOp 2 removed, ⟨"hello".toList⟩, o2) :=
  ⟨by decide, delete_captures_outcome "hello".toList 2 100 [] (by decide)⟩

/-! ## One `doOp` followed later by its `undo` -/

/-- When a replace writes a non-empty text (and for every insert and delete),
the inverse taken after `apply` leads from the buffer `apply` left back to the
buffer `apply` found. -/
theorem undo_step_exact (op : Operation) (d : Document)
    (hok : op.replacesByText = true) :
    ∃ op1 d1 o inv1 o2,
      op.apply d = some (op1, d1, o) ∧ op1.invert.apply d1 = some (inv1, d, o2) := by
  cases op with
  | InsertOp pos txt =>
    by_cases hv : pos < 0 ∨ pos > (d.text.length : Int)
    · exact ⟨_, _, _, _, _, apply_insert (insertText_invalid d pos txt hv),
        apply_delete txt (deleteText_invalid d pos _ (by omega))⟩
    · obtain ⟨a, c, rfl, rfl⟩ := insertText_split d pos hv
      obtain ⟨o2, h2⟩ := deleteText_app a txt c
      exact ⟨_, _, _, _, _, apply_insert (insertText_app a c txt), apply_delete txt h2⟩
  | DeleteOp pos len removed =>
    by_cases hv : pos < 0 ∨ pos ≥ (d.text.length : Int)
    · obtain ⟨o2, h2⟩ := insertText_nil d pos
      exact ⟨_, _, _, _, _, apply_delete removed (deleteText_invalid d pos len hv),
        apply_insert h2⟩
    · obtain ⟨a, r, c, rfl, rfl, -, -, hd, -⟩ := delete_replace_split d pos len hv
      exact ⟨_, _, _, _, _, apply_delete removed hd, apply_insert (insertText_app a c r)⟩
  | ReplaceOp pos len newTxt oldTxt =>
    by_cases hv : pos < 0 ∨ pos ≥ (d.text.length : Int)
    · exact ⟨_, _, _, _, _,
        apply_replace oldTxt (replaceText_invalid d pos len newTxt hv),
        apply_replace [] (replaceText_invalid d pos _ [] hv)⟩
    · obtain ⟨a, r, c, rfl, rfl, -, -, -, hr⟩ := delete_replace_split d pos len hv
      have hs : newTxt ≠ [] := by
        intro hnil
        subst hnil
        simp [Operation.replacesByText] at hok
      have hsc : newTxt ++ c ≠ [] := fun hnil => hs (List.append_eq_nil.mp hnil).1
      exact ⟨_, _, _, _, _, apply_replace oldTxt (hr newTxt),
        apply_replace [] (replaceText_app a newTxt c r hsc)⟩

/-- A run of `doOp` calls followed by `k` calls of `undo`, compared with the
run of the first `n - k` `doOp` calls alone.  `Rel e d` relates the buffer `e`
reached by undoing to the buffer `d` the forward run had; it must hold of equal
buffers and be carried backwards by the inverse of every operation allowed by
`ok`. -/
theorem undo_trace (Rel : Document → Document → Prop) (ok : Operation → Prop)
    (hrefl : ∀ d, Rel d d)
    (hstep : ∀ op d, ok op → ∃ op1 d1 o, op.apply d = some (op1, d1, o)
      ∧ ∀ e, Rel e d1 →
          ∃ inv1 e1 o2, op1.invert.apply e = some (inv1, e1, o2) ∧ Rel e1 d) :
    ∀ ops : List Operation, (∀ op ∈ ops, ok op) → ∀ (h : History) (k : Nat),
      k ≤ ops.length →
      ∃ hf hb, h.run ((ops.take (ops.length - k)).map .doOp) = some hf
        ∧ h.run (ops.map .doOp ++ List.replicate k .undo) = some hb
        ∧ Rel hb.doc hf.doc ∧ hb.undoStack = hf.undoStack := by
  intro ops
  induction ops with
  | nil =>
    intro _ h k hk
    have hk0 : k = 0 := by simpa using hk
    subst hk0
    exact ⟨h, h, by simp [History.run], by simp [History.run], hrefl _, rfl⟩
  | cons op ops ih =>
    intro hok h k hk
    have hok1 : ∀ x ∈ ops, ok x := fun x hx => hok x (List.mem_cons_of_mem _ hx)
    obtain ⟨op1, d1, o, happ, hinv⟩ := hstep op h.doc (hok op (List.mem_cons_self _ _))
    by_cases hk1 : k ≤ ops.length
    · obtain ⟨hf, hb, h1, h2, h3, h4⟩ :=
        ih hok1 ⟨h.undoStack ++ [op1], [], d1⟩ k hk1
      refine ⟨hf, hb, ?_, ?_, h3, h4⟩
      · have hlen : (op :: ops).length - k = (ops.length - k) + 1 := by
          simp only [List.length_cons]; omega
        rw [hlen, List.take_succ_cons, List.map_cons, run_doOp_cons h op _ happ]
        exact h1
      · rw [List.map_cons, List.cons_append, run_doOp_cons h op _ happ]
        exact h2
    · have hk2 : k = ops.length + 1 := by
        simp only [List.length_cons] at hk; omega
      subst hk2
      obtain ⟨hf, hb, h1, h2, h3, h4⟩ :=
        ih hok1 ⟨h.undoStack ++ [op1], [], d1⟩ ops.length (le_refl _)
      simp only [Nat.sub_self, List.take_zero, List.map_nil, History.run,
        Option.some.injEq] at h1
      subst h1
      obtain ⟨ub, rb, db⟩ := hb
      simp only at h3 h4
      subst h4
      obtain ⟨inv1, e1, o2, hi, hrel⟩ := hinv db h3
      refine ⟨h, ⟨h.undoStack, rb ++ [op1], e1⟩, by simp [History.run], ?_, hrel, rfl⟩
      rw [List.replicate_succ', ← List.append_assoc, run_append, List.map_cons,
        List.cons_append, run_doOp_cons h op _ happ, h2]
      simp [History.run, History.call, undo_snoc, hi]

/-- C14 (undo is exact when no replacement has an empty new text).  From every
engine state and for every sequence `O1..On` of operations, valid or not when
executed, of which every `ReplaceOp` has a non-empty `newTxt`: `doOp` of
`O1..On` followed by `n` calls of `undo` returns with the text (and the undo
stack) the engine started with; and for every `k <= n`, after `k` calls of
`undo` the text is the one the run had after `O1..O(n-k)`, that is the text
that preceded the execution of `O(n-k+1)`.  No condition on the lengths is
needed. -/
theorem undo_exact_without_empty_replace (h : History) (ops : List Operation)
    (hok : ∀ op ∈ ops, op.replacesByText = true) :
    (∃ hb, h.run (ops.map .doOp ++ List.replicate ops.length .undo) = some hb
        ∧ hb.currentText = h.currentText ∧ hb.undoStack = h.undoStack)
    ∧ ∀ k, k ≤ ops.length →
        ∃ hf hb, h.run ((ops.take (ops.length - k)).map .doOp) = some hf
          ∧ h.run (ops.map .doOp ++ List.replicate k .undo) = some hb
          ∧ hb.currentText = hf.currentText ∧ hb.undoStack = hf.undoStack := by
  have key := undo_trace (fun e d => e = d) (fun op => op.replacesByText = true)
    (fun _ => rfl)
    (fun op d hop => by
      obtain ⟨op1, d1, o, inv1, o2, h1, h2⟩ := undo_step_exact op d hop
      exact ⟨op1, d1, o, h1, fun e he => ⟨inv1, d, o2, by rw [he]; exact h2, rfl⟩⟩)
    ops hok h
  refine ⟨?_, fun k hk => ?_⟩
  · obtain ⟨hf, hb, h1, h2, h3, h4⟩ := key ops.length (le_refl _)
    simp only [Nat.sub_self, List.take_zero, List.map_nil, History.run,
      Option.some.injEq] at h1
    subst h1
    exact ⟨hb, h2, congrArg Document.getText h3, h4⟩
  · obtain ⟨hf, hb, h1, h2, h3, h4⟩ := key k hk
    exact ⟨hf, hb, h1, h2, congrArg Document.getText h3, h4⟩

/-- Witness of C14: a fresh engine and the four operations of `sampleOps`. -/
theorem undo_exact_without_empty_replace_witness :
    (∀ op ∈ sampleOps, op.replacesByText = true)
    ∧ (∃ hb, History.fresh.run
          (sampleOps.map .doOp ++ List.replicate sampleOps.length .undo) = some hb
        ∧ hb.currentText = History.fresh.currentText
        ∧ hb.undoStack = History.fresh.undoStack)
    ∧ ∀ k, k ≤ sampleOps.length →
        ∃ hf hb,
          History.fresh.run ((sampleOps.take (sampleOps.length - k)).map .doOp) = some hf
          ∧ History.fresh.run (sampleOps.map .doOp ++ List.replicate k .undo) = some hb
          ∧ hb.currentText = hf.currentText ∧ hb.undoStack = hf.undoStack :=
  ⟨by decide, undo_exact_without_empty_replace History.fresh sampleOps (by decide)⟩

/-- C15 (exact condition for undoing a replace).  For every buffer `t` and every
`Replace(pos, len, newText)` with `0 <= pos < |t|` and `len >= 0`: `doOp`
followed by `undo()` returns, and the text after them is `t` if and only if
`newText` is non-empty or `pos + len < |t|`.  When `newText` is empty and
`pos + len >= |t|`, the inverse is `Replace(pos, 0, oldText)`, `replaceText`
rejects it with "Replace: invalid position", and the text stays `t[0..pos)`:
the overwritten text `oldText`, which is not empty, is not restored. -/
theorem replace_undo_condition (t : Str) (pos len : Int) (newTxt oldTxt : Str)
    (u r : List Operation)
    (h0 : 0 ≤ pos) (h1 : pos < (t.length : Int)) (hl : 0 ≤ len) :
    ∃ old hA oA hB oB,
      History.doOp ⟨u, r, ⟨t⟩⟩ (.ReplaceOp pos len newTxt oldTxt) = some (hA, oA)
      ∧ hA.undoStack = u ++ [.ReplaceOp pos len newTxt old]
      ∧ hA.undo = some (hB, oB)
      ∧ (hB.currentText = t ↔ (newTxt ≠ [] ∨ pos + len < (t.length : Int)))
      ∧ (newTxt = [] ∧ pos + len ≥ (t.length : Int) →
          (Operation.ReplaceOp pos len newTxt old).invert = .ReplaceOp pos 0 old []
          ∧ oB = ["Replace: invalid position\n"]
          ∧ hB.currentText = t.take pos.toNat
          ∧ t = hB.currentText ++ old ∧ old ≠ []) := by
  obtain ⟨a, b, c, ht, rfl, hbc, hk, -, hr⟩ :=
    delete_replace_split ⟨t⟩ pos len (by simp only [ge_iff_le]; omega)
  have ht1 : t = a ++ b ++ c := congrArg Document.text ht
  subst ht1
  have hk1 := hk hl
  have hbc1 : 0 < b.length + c.length := by
    have := List.length_pos.mpr hbc
    simpa using this
  have hdo : History.doOp ⟨u, r, ⟨a ++ b ++ c⟩⟩
      (.ReplaceOp (a.length : Int) len newTxt oldTxt)
      = some (⟨u ++ [.ReplaceOp (a.length : Int) len newTxt b], [],
          ⟨a ++ newTxt ++ c⟩⟩, []) :=
    doOp_of_apply (apply_replace oldTxt (hr newTxt))
  by_cases hsc : newTxt ++ c = []
  · obtain ⟨hs, hc⟩ := List.append_eq_nil.mp hsc
    subst hs hc
    have hb : b ≠ [] := by
      intro hnil
      subst hnil
      simp at hbc1
    have hlen : (a.length : Int) + len ≥ ((a ++ b ++ []).length : Int) := by
      simp only [List.length_append, List.length_nil] at hk1 ⊢
      omega
    refine ⟨b, _, _, ⟨u, [] ++ [.ReplaceOp (a.length : Int) len [] b], ⟨a ++ [] ++ []⟩⟩,
      ["Replace: invalid position\n"], hdo, rfl, ?_, ?_, fun _ => ?_⟩
    · rw [undo_snoc, show (Operation.ReplaceOp (a.length : Int) len [] b).invert
          = .ReplaceOp (a.length : Int) 0 b [] from rfl,
        apply_replace [] (replaceText_invalid _ _ _ _ (by simp))]
      rfl
    · constructor
      · intro hEq
        have := congrArg List.length hEq
        have hb1 := List.length_pos.mpr hb
        simp only [History.currentText, Document.getText, List.length_append,
          List.length_nil] at this
        omega
      · intro hor
        rcases hor with hne | hlt
        · exact absurd rfl hne
        · omega
    · exact ⟨rfl, rfl, by simp [History.currentText, Document.getText],
        by simp [History.currentText, Document.getText], hb⟩
  · have hcond : newTxt ≠ [] ∨ (a.length : Int) + len < ((a ++ b ++ c).length : Int) := by
      by_cases hs : newTxt = []
      · right
        subst hs
        have hc : 0 < c.length := List.length_pos.mpr (by simpa using hsc)
        simp only [List.length_append]
        omega
      · exact Or.inl hs
    refine ⟨b, _, _, ⟨u, [] ++ [.ReplaceOp (a.length : Int) len newTxt b], ⟨a ++ b ++ c⟩⟩,
      [], hdo, rfl, ?_, ?_, fun hbad => ?_⟩
    · rw [undo_snoc, show (Operation.ReplaceOp (a.length : Int) len newTxt b).invert
          = .ReplaceOp (a.length : Int) (newTxt.length : Int) b [] from rfl,
        apply_replace [] (replaceText_app a newTxt c b hsc)]
      rfl
    · exact ⟨fun _ => hcond, fun _ => rfl⟩
    · rcases hcond with hne | hlt
      · exact absurd hbad.1 hne
      · omega

/-- Witness of C15: `Replace(2,3,"")` on `"hello"`. -/
theorem replace_undo_condition_witness :
    (0 : Int) ≤ 2 ∧ (2 : Int) < ("hello".toList.length : Int) ∧ (0 : Int) ≤ 3 ∧
    ∃ old hA oA hB oB,
      History.doOp ⟨[], [], ⟨"hello".toList⟩⟩ (.ReplaceOp 2 3 [] []) = some (hA, oA)
      ∧ hA.undoStack = [] ++ [.ReplaceOp 2 3 [] old]
      ∧ hA.undo = some (hB, oB)
      ∧ (hB.currentText = "hello".toList
          ↔ (([] : Str) ≠ [] ∨ (2 : Int) + 3 < ("hello".toList.length : Int)))
      ∧ (([] : Str) = [] ∧ (2 : Int) + 3 ≥ ("hello".toList.length : Int) →
          (Operation.ReplaceOp 2 3 [] old).invert = .ReplaceOp 2 0 old []
          ∧ oB = ["Replace: invalid position\n"]
          ∧ hB.currentText = "hello".toList.take (2 : Int).toNat
          ∧ "hello".toList = hB.currentText ++ old ∧ old ≠ []) :=
  ⟨by decide, by decide, by decide,
    replace_undo_condition "hello".toList 2 3 [] [] [] [] (by decide) (by decide)
      (by decide)⟩

/-- C16 (redo repeats the undo).  For every engine state whose undo stack is
`u ++ [op]`: `op.invert()` applies to the buffer `d` and leaves `d1`, applies
again to `d1` and leaves `d2`; `undo()` returns with the buffer `d1`, and the
`redo()` that follows returns with the buffer `d2` and with the undo stack and
the redo stack that were there before the `undo()`.  On the text `"abc"`,
`doOp(Insert(0,"X"))` gives `"Xabc"`, `undo()` gives `"abc"` and `redo()` gives
`"bc"`, which is not the text before the undo. -/
theorem redo_repeats_undo :
    (∀ (u r : List Operation) (op : Operation) (d : Document),
      ∃ i1 d1 o1 i2 d2 o2,
        op.invert.apply d = some (i1, d1, o1)
        ∧ op.invert.apply d1 = some (i2, d2, o2)
        ∧ History.undo ⟨u ++ [op], r, d⟩ = some (⟨u, r ++ [op], d1⟩, o1)
        ∧ History.redo ⟨u, r ++ [op], d1⟩ = some (⟨u ++ [op], r, d2⟩, o2))
    ∧ (History.run ⟨[], [], ⟨"abc".toList⟩⟩ [.doOp (.InsertOp 0 "X".toList)]).map
        History.currentText = some "Xabc".toList
    ∧ (History.run ⟨[], [], ⟨"abc".toList⟩⟩
        [.doOp (.InsertOp 0 "X".toList), .undo]).map
        History.currentText = some "abc".toList
    ∧ (History.run ⟨[], [], ⟨"abc".toList⟩⟩
        [.doOp (.InsertOp 0 "X".toList), .undo, .redo]).map
        History.currentText = some "bc".toList := by
  refine ⟨fun u r op d => ?_, by decide, by decide, by decide⟩
  obtain ⟨⟨i1, d1, o1⟩, h1⟩ := apply_total op.invert d
  obtain ⟨⟨i2, d2, o2⟩, h2⟩ := apply_total op.invert d1
  exact ⟨i1, d1, o1, i2, d2, o2, h1, h2, by rw [undo_snoc, h1]; rfl,
    by rw [redo_snoc, h2]; rfl⟩

/-- The inverse taken after `apply`, applied to any buffer `e` that is no
longer than the buffer `apply` left, leaves a buffer that is no longer than
the buffer `apply` found. -/
theorem undo_step_shrinks (op : Operation) (d : Document) :
    ∃ op1 d1 o, op.apply d = some (op1, d1, o)
      ∧ ∀ e : Document, e.text.length ≤ d1.text.length →
          ∃ inv1 e1 o2, op1.invert.apply e = some (inv1, e1, o2)
            ∧ e1.text.length ≤ d.text.length := by
  cases op with
  | InsertOp pos txt =>
    by_cases hv : pos < 0 ∨ pos > (d.text.length : Int)
    · refine ⟨_, _, _, apply_insert (insertText_invalid d pos txt hv), fun e he => ?_⟩
      exact ⟨_, _, _, apply_delete txt (deleteText_invalid e pos _ (by omega)), he⟩
    · obtain ⟨a, c, rfl, rfl⟩ := insertText_split d pos hv
      refine ⟨_, _, _, apply_insert (insertText_app a c txt), fun e he => ?_⟩
      simp only [List.length_append] at he
      by_cases hw : (a.length : Int) < 0 ∨ (a.length : Int) ≥ (e.text.length : Int)
      · refine ⟨_, _, _, apply_delete txt (deleteText_invalid e _ _ hw), ?_⟩
        simp only [List.length_append]
        omega
      · obtain ⟨a1, b1, c1, rfl, hpos, -, hk, hd, -⟩ :=
          delete_replace_split e (a.length : Int) (txt.length : Int) hw
        have hk1 := hk (by omega)
        refine ⟨_, _, _, apply_delete txt hd, ?_⟩
        simp only [List.length_append] at he ⊢
        omega
  | DeleteOp pos len removed =>
    by_cases hv : pos < 0 ∨ pos ≥ (d.text.length : Int)
    · refine ⟨_, _, _, apply_delete removed (deleteText_invalid d pos len hv),
        fun e he => ?_⟩
      obtain ⟨o2, h2⟩ := insertText_nil e pos
      exact ⟨_, _, _, apply_insert h2, he⟩
    · obtain ⟨a, r, c, rfl, rfl, -, -, hd, -⟩ := delete_replace_split d pos len hv
      refine ⟨_, _, _, apply_delete removed hd, fun e he => ?_⟩
      simp only [List.length_append] at he
      by_cases hw : (a.length : Int) < 0 ∨ (a.length : Int) > (e.text.length : Int)
      · refine ⟨_, _, _, apply_insert (insertText_invalid e _ r hw), ?_⟩
        simp only [List.length_append]
        omega
      · obtain ⟨a1, c1, rfl, hpos⟩ := insertText_split e (a.length : Int) hw
        have hi := insertText_app a1 c1 r
        rw [hpos] at hi
        refine ⟨_, _, _, apply_insert hi, ?_⟩
        simp only [List.length_append] at he ⊢
        omega
  | ReplaceOp pos len newTxt oldTxt =>
    by_cases hv : pos < 0 ∨ pos ≥ (d.text.length : Int)
    · refine ⟨_, _, _, apply_replace oldTxt (replaceText_invalid d pos len newTxt hv),
        fun e he => ?_⟩
      exact ⟨_, _, _, apply_replace [] (replaceText_invalid e pos _ [] (by omega)), he⟩
    · obtain ⟨a, r, c, rfl, rfl, -, -, -, hr⟩ := delete_replace_split d pos len hv
      refine ⟨_, _, _, apply_replace oldTxt (hr newTxt), fun e he => ?_⟩
      simp only [List.length_append] at he
      by_cases hw : (a.length : Int) < 0 ∨ (a.length : Int) ≥ (e.text.length : Int)
      · refine ⟨_, _, _, apply_replace [] (replaceText_invalid e _ _ r hw), ?_⟩
        simp only [List.length_append]
        omega
      · obtain ⟨a1, b1, c1, rfl, hpos, -, hk, -, hrep⟩ :=
          delete_replace_split e (a.length : Int) (newTxt.length : Int) hw
        have hk1 := hk (by omega)
        refine ⟨_, _, _, apply_replace [] (hrep r), ?_⟩
        simp only [List.length_append] at he ⊢
        omega

/-- C17 (undoing everything empties the document).  On a fresh engine, for
every sequence `O1..On` of operations of any class, valid or not when executed:
`doOp` of `O1..On` followed by `n` calls of `undo` returns with the empty text
and the empty undo stack; and for every `k <= n`, the text after `k` calls of
`undo` is no longer than the text the run had after `O1..O(n-k)`.  An undo in
between need not restore its predecessor text: after `Insert(0,"hello")` and
`Replace(2,3,"")` one `undo()` leaves `"he"`, the second leaves `""`.  No
condition on the lengths is needed. -/
theorem undo_all_empties (ops : List Operation) :
    (∃ hb, History.fresh.run (ops.map .doOp ++ List.replicate ops.length .undo)
        = some hb ∧ hb.currentText = [] ∧ hb.undoStack = [])
    ∧ (∀ k, k ≤ ops.length →
        ∃ hf hb, History.fresh.run ((ops.take (ops.length - k)).map .doOp) = some hf
          ∧ History.fresh.run (ops.map .doOp ++ List.replicate k .undo) = some hb
          ∧ hb.currentText.length ≤ hf.currentText.length)
    ∧ (History.fresh.run
        [.doOp (.InsertOp 0 "hello".toList), .doOp (Operation.newReplace 2 3 []),
         .undo]).map History.currentText = some "he".toList
    ∧ (History.fresh.run
        [.doOp (.InsertOp 0 "hello".toList), .doOp (Operation.newReplace 2 3 []),
         .undo, .undo]).map History.currentText = some [] := by
  have key := undo_trace (fun e d => e.text.length ≤ d.text.length) (fun _ => True)
    (fun _ => le_refl _) (fun op d _ => undo_step_shrinks op d) ops
    (fun _ _ => trivial) History.fresh
  refine ⟨?_, fun k hk => ?_, by decide, by decide⟩
  · obtain ⟨hf, hb, h1, h2, h3, h4⟩ := key ops.length (le_refl _)
    simp only [Nat.sub_self, List.take_zero, List.map_nil, History.run,
      Option.some.injEq] at h1
    subst h1
    refine ⟨hb, h2, ?_, h4⟩
    exact List.length_eq_zero.mp (Nat.le_zero.mp h3)
  · obtain ⟨hf, hb, h1, h2, h3, -⟩ := key k hk
    exact ⟨hf, hb, h1, h2, h3⟩

/-- C18 (a negative length means "to the end").  For every buffer `t` (shorter
than `2^31`, so that `(int)text.size()` is exact), every position
`0 <= pos < |t|` and every negative `int` `len` (so `-2^31 <= len`): the test
`pos + len > |t|` is false, `len` is not clamped, and its conversion to
`size_t` is `2^64 + len`, which is at least `|t|`.  So `deleteText(pos, len)`
prints nothing, returns `t[pos..)`, which is not empty, and leaves `t[0..pos)`;
`replaceText(pos, len, s)` prints nothing, returns `t[pos..)` and leaves
`t[0..pos) ++ s`. -/
theorem negative_len_reaches_end (t : Str) (pos len : Int) (s : Str)
    (h0 : 0 ≤ pos) (h1 : pos < (t.length : Int))
    (hneg : len < 0) (hint : -(2 : Int) ^ 31 ≤ len) (hsz : (t.length : Int) < 2 ^ 31) :
    ¬ (pos + len > (t.length : Int))
    ∧ clampLen t.length pos len = len
    ∧ toSizeT len = (len + 2 ^ 64).toNat
    ∧ t.length ≤ toSizeT len
    ∧ Document.deleteText ⟨t⟩ pos len
        = some (⟨t.take pos.toNat⟩, t.drop pos.toNat, [])
    ∧ Document.replaceText ⟨t⟩ pos len s
        = some (⟨t.take pos.toNat ++ s⟩, t.drop pos.toNat, [])
    ∧ t.drop pos.toNat ≠ [] := by
  have hc : clampLen t.length pos len = len := by
    unfold clampLen
    rw [wrapInt32_of_range (by omega) (by omega), if_neg (by omega)]
  have hz : toSizeT len = (len + 2 ^ 64).toNat := by
    unfold toSizeT
    rw [if_neg (by omega)]
  have hbig : t.length ≤ (len + 2 ^ 64).toNat := by omega
  have htake : (t.drop pos.toNat).take (len + 2 ^ 64).toNat = t.drop pos.toNat :=
    List.take_of_length_le (by rw [List.length_drop]; omega)
  have hdrop : (t.drop pos.toNat).drop (len + 2 ^ 64).toNat = [] :=
    List.drop_of_length_le (by rw [List.length_drop]; omega)
  have hv : ¬ (pos < 0 ∨ pos ≥ (t.length : Int)) := by omega
  refine ⟨by omega, hc, hz, by rw [hz]; exact hbig, ?_, ?_, ?_⟩
  · rw [deleteText_valid ⟨t⟩ pos len hv]
    simp only [hc, hz, htake, hdrop, List.append_nil]
  · rw [replaceText_valid ⟨t⟩ pos len s hv]
    simp only [hc, hz, htake, hdrop, List.append_nil]
  · intro hnil
    have := congrArg List.length hnil
    simp only [List.length_drop, List.length_nil] at this
    omega

/-- Witness of C18: `len = -1` at position 2 of `"hello"`. -/
theorem negative_len_reaches_end_witness :
    (0 : Int) ≤ 2 ∧ (2 : Int) < ("hello".toList.length : Int) ∧ (-1 : Int) < 0
    ∧ -(2 : Int) ^ 31 ≤ -1 ∧ ("hello".toList.length : Int) < 2 ^ 31 ∧
    ¬ ((2 : Int) + (-1 : Int) > ("hello".toList.length : Int))
    ∧ clampLen "hello".toList.length (2 : Int) (-1 : Int) = (-1 : Int)
    ∧ toSizeT (-1 : Int) = ((-1 : Int) + 2 ^ 64).toNat
    ∧ "hello".toList.length ≤ toSizeT (-1 : Int)
    ∧ Document.deleteText ⟨"hello".toList⟩ (2 : Int) (-1 : Int)
        = some (⟨"hello".toList.take (2 : Int).toNat⟩, "hello".toList.drop (2 : Int).toNat, [])
    ∧ Document.replaceText ⟨"hello".toList⟩ (2 : Int) (-1 : Int) "XY".toList
        = some (⟨"hello".toList.take (2 : Int).toNat ++ "XY".toList⟩,
                "hello".toList.drop (2 : Int).toNat, [])
    ∧ "hello".toList.drop (2 : Int).toNat ≠ [] :=
  ⟨by decide, by decide, by decide, by decide, by decide,
    negative_len_reaches_end "hello".toList 2 (-1) "XY".toList (by decide) (by decide)
      (by decide) (by decide) (by decide)⟩

end UndoRedo
